/-
Verification of the fragment-to-paragraph alignment and merge core
of the juridoc repository (src/annotate.py).

Python strings are modelled as `List Char` (named `Str`). Character
classes model Python's `re` classes on the character repertoire of this
repository (ASCII plus the Romanian diacritics that occur in the legal
documents it processes): `\s` is the ASCII whitespace class, `\w` is
"ASCII alphanumeric or underscore or Romanian diacritic letter", and
`str.lower()` lowercases ASCII letters and the uppercase diacritics.

Scores, which are Python floats in the source, are modelled as rationals
(ℚ).  For the magnitudes that occur (ratios u/t of small naturals
compared against 0.1, 1.0 and each other) IEEE double comparison agrees
with exact rational comparison, since u/t is correctly rounded and the
rationals involved are separated from the comparison constants by far
more than one ulp whenever they differ from them.
-/
import Mathlib

abbrev Str := List Char

/-- Python's `\s` class (and the separator set of `str.split()` /
`str.strip()`) restricted to ASCII: space, tab, newline, carriage
return, vertical tab, form feed. -/
def pyIsSpace (c : Char) : Bool :=
  c == ' ' || c == '\t' || c == '\n' || c == '\r' || c.toNat == 11 || c.toNat == 12

/-- The Romanian diacritic letters occurring in the documents this
repository processes; Python's `\w` classifies all of them as word
characters. -/
def romanianLetter (c : Char) : Bool :=
  c = 'ă' || c = 'Ă' || c = 'â' || c = 'Â' || c = 'î' || c = 'Î' ||
  c = 'ș' || c = 'Ș' || c = 'ț' || c = 'Ț'

/-- Python's `\w` class on the repertoire of this repository: letters,
digits, the underscore, and accented (Romanian) letters. -/
def pyWordChar (c : Char) : Bool :=
  c.isAlphanum || c == '_' || romanianLetter c

/-- Python's `str.lower()` on the repertoire of this repository. -/
def pyLower (c : Char) : Char :=
  if c.isUpper then Char.ofNat (c.toNat + 32)
  else if c = 'Ă' then 'ă'
  else if c = 'Â' then 'â'
  else if c = 'Î' then 'î'
  else if c = 'Ș' then 'ș'
  else if c = 'Ț' then 'ț'
  else c

/-- `str.strip()`: drop leading and trailing whitespace. -/
def pyStrip (s : Str) : Str :=
  ((s.dropWhile pyIsSpace).reverse.dropWhile pyIsSpace).reverse

/-- Worker for `str.split()`: `acc` holds the (reversed) word currently
being read. -/
def pySplitAux : Str → Str → List Str
  | [], acc => if acc.isEmpty then [] else [acc.reverse]
  | c :: rest, acc =>
    if pyIsSpace c then
      if acc.isEmpty then pySplitAux rest [] else acc.reverse :: pySplitAux rest []
    else pySplitAux rest (c :: acc)

/-- `str.split()` (no argument): split on runs of whitespace, producing
no empty tokens. -/
def pySplit (s : Str) : List Str :=
  pySplitAux s []

/-- `' '.join(tokens)`. -/
def pyJoinSpace : List Str → Str
  | [] => []
  | [t] => t
  | t :: u :: ts => t ++ ' ' :: pyJoinSpace (u :: ts)

/-- Python's substring test `needle in hay`. -/
def isSubstr (needle hay : Str) : Bool :=
  (List.range (hay.length + 1)).any fun i => needle.isPrefixOf (hay.drop i)

/-- The normalization inside `words_match`:
`re.sub(r'[^\w\s]', '', word.lower())` — lowercase, then keep only word
characters and whitespace. -/
def cleanWord (w : Str) : Str :=
  (w.map pyLower).filter fun c => pyWordChar c || pyIsSpace c

/-- `words_match` (src/annotate.py:62-68): two words match when their
cleaned forms coincide. -/
def words_match (word1 word2 : Str) : Bool :=
  cleanWord word1 == cleanWord word2

/-- The backward scan of `remove_duplicate_paragraphs_from_end`,
expressed on the reversed list: pop the head while it strip-equals the
next element and at least three elements remain (the source loop runs
only while `i > 1`, i.e. while the current last element has index ≥ 2). -/
def rdLoop : List Str → List Str
  | a :: b :: c :: rest =>
    if pyStrip a = pyStrip b then rdLoop (b :: c :: rest) else a :: b :: c :: rest
  | l => l

/-- `remove_duplicate_paragraphs_from_end` (src/annotate.py:71-87). -/
def remove_duplicate_paragraphs_from_end (ms : List Str) : List Str :=
  if ms.length < 2 then ms
  else (rdLoop ms.reverse).reverse

/-- The `Word` model of src/models.py: immutable text and position
metadata plus the mutable boolean category flags. -/
structure Word where
  id : Str := []
  text : Str
  left : Int := 0
  top : Int := 0
  width : Int := 0
  height : Int := 0
  isSelected : Bool := false
  isProba : Bool := false
  isExceptie : Bool := false
  isTemei : Bool := false
  isCerere : Bool := false
  isReclamant : Bool := false
  isParat : Bool := false
deriving DecidableEq, Inhabited, Repr

structure Paragraph where
  id : Str := []
  words : List Word
deriving DecidableEq, Inhabited, Repr

structure Page where
  width : Int := 0
  height : Int := 0
  pageNumber : Int := 0
  paragraphs : List Paragraph
deriving DecidableEq, Inhabited, Repr

/-- The token-by-token window test inside
`find_word_positions_in_paragraph` (src/annotate.py:46-53): each target
word is compared, via `words_match`, against the stripped text of the
paragraph word at the corresponding offset. -/
def windowMatches : List Str → List Word → Bool
  | [], _ => true
  | _ :: _, [] => false
  | t :: ts, w :: ws => words_match (pyStrip w.text) t && windowMatches ts ws

/-- `find_word_positions_in_paragraph` (src/annotate.py:37-59): slide a
window of the target's length across the paragraph words; for every
matching offset record the covered index range.  The Python loop bound
`range(len(paragraph_words) - len(target_words) + 1)` is
`List.range (pws.length + 1 - tws.length)` (both are empty when the
target is longer than the paragraph). -/
def find_word_positions_in_paragraph (target_text : Str) (paragraph_words : List Word) :
    List Nat :=
  let target_words := pySplit (pyStrip target_text)
  if target_words.isEmpty then []
  else
    (List.range (paragraph_words.length + 1 - target_words.length)).flatMap fun start_pos =>
      if windowMatches target_words (paragraph_words.drop start_pos) then
        (List.range target_words.length).map (start_pos + ·)
      else []

/-- `find_contiguous_matches` (src/annotate.py:18-34): try every
contiguous sub-phrase `annotated_words[s:e]` (`e = s + d + 1`) of the
fragment's tokens and collect all matching position ranges. -/
def find_contiguous_matches (annotated_text : Str) (original_words : List Word) :
    List Nat :=
  let aw := pySplit annotated_text
  (List.range aw.length).flatMap fun s =>
    (List.range (aw.length - s)).flatMap fun d =>
      find_word_positions_in_paragraph (pyJoinSpace ((aw.drop s).take (d + 1))) original_words

/-- The joined paragraph text
`' '.join([word.text.strip() for word in paragraph_words]).strip()`
(src/annotate.py:96). -/
def paragraphText (paragraph_words : List Word) : Str :=
  pyStrip (pyJoinSpace (paragraph_words.map fun w => pyStrip w.text))

/-- The fragment normalization
`' '.join(cleaned_content.strip().split()).strip()`
(src/annotate.py:121). -/
def normFragment (cleaned_content : Str) : Str :=
  pyStrip (pyJoinSpace (pySplit (pyStrip cleaned_content)))

/-- `calculate_match_score` (src/annotate.py:90-112), with Python float
division modelled as exact rational division, written `mkRat u t`
(equal to `(u : ℚ) / t`, see `calculate_match_score_div_form`).  The
Python tail `unique / total if total > 0 else 0` is reached only with
`total > 0` thanks to the first guard, so it is plain division here. -/
def calculate_match_score (annotated_content : Str) (paragraph_words : List Word)
    (annotated_text_normalized : Str) : ℚ :=
  if paragraph_words.isEmpty then 0
  else if (paragraphText paragraph_words).length < annotated_content.length then 0
  else if isSubstr annotated_text_normalized (paragraphText paragraph_words) then 1
  else
    mkRat ((find_contiguous_matches annotated_text_normalized paragraph_words).dedup.length)
      paragraph_words.length

/-- The non-empty words of a paragraph, in order
(src/annotate.py:128). -/
def nonEmptyWords (para : Paragraph) : List Word :=
  para.words.filter fun w => !(pyStrip w.text).isEmpty

/-- Paragraph lookup `annotated_document.pages[page_idx].paragraphs[para_idx]`
(src/annotate.py:124-125); mappings built by the caller are always in
bounds, out-of-bounds indices yield the default empty paragraph. -/
def paraAt (doc : List Page) (page_idx para_idx : Nat) : Paragraph :=
  (doc.getD page_idx default).paragraphs.getD para_idx default

/-- The scanning loop of `find_best_matching_paragraph`
(src/annotate.py:123-144), carrying the running best score and best
paragraph info.  Python dict iteration over `paragraph_mapping` is
insertion order, modelled as a list of `(page_idx, para_idx)` pairs. -/
def fbmLoop (cleaned norm : Str) (doc : List Page) :
    List (Nat × Nat) → ℚ → Option (Nat × Nat × List Word) → ℚ × Option (Nat × Nat × List Word)
  | [], best, info => (best, info)
  | (pi, qi) :: rest, best, info =>
    if (nonEmptyWords (paraAt doc pi qi)).isEmpty then
      fbmLoop cleaned norm doc rest best info
    else if calculate_match_score cleaned (nonEmptyWords (paraAt doc pi qi)) norm = 1 then
      (calculate_match_score cleaned (nonEmptyWords (paraAt doc pi qi)) norm,
        some (pi, qi, nonEmptyWords (paraAt doc pi qi)))
    else if best < calculate_match_score cleaned (nonEmptyWords (paraAt doc pi qi)) norm then
      fbmLoop cleaned norm doc rest
        (calculate_match_score cleaned (nonEmptyWords (paraAt doc pi qi)) norm)
        (some (pi, qi, nonEmptyWords (paraAt doc pi qi)))
    else fbmLoop cleaned norm doc rest best info

/-- `find_best_matching_paragraph` (src/annotate.py:115-144). -/
def find_best_matching_paragraph (cleaned_content : Str)
    (paragraph_mapping : List (Nat × Nat)) (doc : List Page) :
    ℚ × Option (Nat × Nat × List Word) :=
  fbmLoop cleaned_content (normFragment cleaned_content) doc paragraph_mapping 0 none

/-- The non-empty words of the paragraph a mapping entry points to. -/
def entryWords (doc : List Page) (e : Nat × Nat) : List Word :=
  nonEmptyWords (paraAt doc e.1 e.2)

/-- The score `find_best_matching_paragraph` computes for one mapping
entry. -/
def entryScore (cleaned_content : Str) (doc : List Page) (e : Nat × Nat) : ℚ :=
  calculate_match_score cleaned_content (entryWords doc e) (normFragment cleaned_content)

/-- The six category identifiers handled by the merge loop
(src/annotate.py:155, 301-312). -/
inductive AnnType
  | isTemei
  | isProba
  | isSelected
  | isCerere
  | isReclamant
  | isParat
deriving DecidableEq, Repr

/-- The flag assignment dispatch (src/annotate.py:301-312): set the one
boolean field named by the category to `True`. -/
def setFlag : AnnType → Word → Word
  | .isTemei, w => { w with isTemei := true }
  | .isProba, w => { w with isProba := true }
  | .isSelected, w => { w with isSelected := true }
  | .isCerere, w => { w with isCerere := true }
  | .isReclamant, w => { w with isReclamant := true }
  | .isParat, w => { w with isParat := true }

/-- Read the boolean field named by a category. -/
def getFlag : AnnType → Word → Bool
  | .isTemei, w => w.isTemei
  | .isProba, w => w.isProba
  | .isSelected, w => w.isSelected
  | .isCerere, w => w.isCerere
  | .isReclamant, w => w.isReclamant
  | .isParat, w => w.isParat

/-- The flagging loop (src/annotate.py:298-312) as a pure walk over the
paragraph's word list: the source flags the word objects of the
*filtered* list `paragraph_words` at each position in
`unique_positions`, so here `fi` counts the non-empty words seen so far
and a word is flagged when its filtered index is in `positions`.
Positions at or past the filtered length are never reached, exactly as
the source's `pos < len(paragraph_words)` guard skips them. -/
def applyFlags (t : AnnType) (positions : List Nat) : List Word → Nat → List Word
  | [], _ => []
  | w :: ws, fi =>
    if (pyStrip w.text).isEmpty then w :: applyFlags t positions ws fi
    else
      (if fi ∈ positions then setFlag t w else w) :: applyFlags t positions ws (fi + 1)

/-- Replace the paragraph at `(pi, qi)` by `f` of itself, leaving every
other page and paragraph untouched (the pure rendering of the source's
in-place mutation of that one paragraph's words). -/
def updatePara (doc : List Page) (pi qi : Nat) (f : Paragraph → Paragraph) : List Page :=
  doc.mapIdx fun i pg =>
    if i = pi then
      { pg with paragraphs := pg.paragraphs.mapIdx fun j pr => if j = qi then f pr else pr }
    else pg

/-- One iteration of the per-fragment merge loop
(src/annotate.py:278-312): strip the fragment, skip it when empty, find
the best paragraph, and when one was found with score above 0.1
recompute the matched positions and set the category flag on them. -/
def process_fragment (t : AnnType) (mapping : List (Nat × Nat)) (doc : List Page)
    (para_content : Str) : List Page :=
  if (pyStrip para_content).isEmpty then doc
  else
    match find_best_matching_paragraph (pyStrip para_content) mapping doc with
    | (score, some (pi, qi, pws)) =>
      if mkRat 1 10 < score then
        updatePara doc pi qi fun pr =>
          { pr with
            words := applyFlags t
              ((find_contiguous_matches
                (pyJoinSpace (pySplit (pyStrip para_content))) pws).dedup)
              pr.words 0 }
      else doc
    | (_, none) => doc

/-- The whole merge pass of one category over its fragment list
(src/annotate.py:278-312), fragments processed strictly in order. -/
def process_fragments (t : AnnType) (mapping : List (Nat × Nat)) (doc : List Page)
    (frags : List Str) : List Page :=
  frags.foldl (process_fragment t mapping) doc

/-- Spec-side notion (§4.3): the sub-phrase `tokens` matches the
paragraph window starting at `off` when the window fits inside the
paragraph and every token equals (via the Word Normalizer applied to the
stripped paragraph word) the paragraph word at the corresponding
offset. -/
def subPhraseMatchesAt (tokens : List Str) (pws : List Word) (off : Nat) : Prop :=
  off + tokens.length ≤ pws.length ∧
    ∀ j < tokens.length,
      words_match (pyStrip ((pws.getD (off + j) default).text)) (tokens.getD j []) = true

/-- Spec-side notion (§4.3, for the refinement claim C4): index `i`
lies in some matching window of some contiguous sub-phrase
`tokens[s:e]` (`s < e ≤ number of fragment tokens`) of the fragment. -/
def SpecMatchedIndex (frag : Str) (pws : List Word) (i : Nat) : Prop :=
  ∃ s e off, s < e ∧ e ≤ (pySplit frag).length ∧
    subPhraseMatchesAt (((pySplit frag).drop s).take (e - s)) pws off ∧
    off ≤ i ∧ i < off + (e - s)

/-- Spec-side normalization as claim C5 words it: lowercase, then keep
only letters, digits and whitespace (underscore NOT kept). -/
def specCleanC5 (w : Str) : Str :=
  (w.map pyLower).filter fun c =>
    c.isAlpha || romanianLetter c || c.isDigit || pyIsSpace c

/-- Spec-side normalization as amended: lowercase, then keep word
characters (letters, digits, the underscore) and whitespace. -/
def specCleanAmended (w : Str) : Str :=
  (w.map pyLower).filter fun c =>
    c.isAlpha || romanianLetter c || c.isDigit || c == '_' || pyIsSpace c

/-- Frame relation on words for a merge pass of category `t`: text and
position metadata unchanged, every other flag (including the unused
`isExceptie`) unchanged, and the flag of `t` can only move from `false`
to `true`. -/
def WordFrame (t : AnnType) (w w' : Word) : Prop :=
  w'.text = w.text ∧ w'.id = w.id ∧ w'.left = w.left ∧ w'.top = w.top ∧
  w'.width = w.width ∧ w'.height = w.height ∧ w'.isExceptie = w.isExceptie ∧
  (∀ t', t' ≠ t → getFlag t' w' = getFlag t' w) ∧
  (getFlag t w = true → getFlag t w' = true) ∧
  (getFlag t w' ≠ getFlag t w → getFlag t w' = true)

/-- Frame relation on paragraphs: id unchanged, words related pointwise
(so no word is inserted, deleted or reordered). -/
def ParaFrame (t : AnnType) (pr pr' : Paragraph) : Prop :=
  pr'.id = pr.id ∧ List.Forall₂ (WordFrame t) pr.words pr'.words

/-- Frame relation on pages. -/
def PageFrame (t : AnnType) (pg pg' : Page) : Prop :=
  pg'.width = pg.width ∧ pg'.height = pg.height ∧ pg'.pageNumber = pg.pageNumber ∧
  List.Forall₂ (ParaFrame t) pg.paragraphs pg'.paragraphs

/-! Concrete sample documents used by counterexamples and witnesses. -/

def wA : Word := { text := ['a'] }

def wB : Word := { text := ['b'] }

def wQ : Word := { text := ['q'] }

def wR : Word := { text := ['r'] }

def wX : Word := { text := ['x'] }

/-- A page with three paragraphs: `"a b"`, `"a q"`, `"a r"`. -/
def samplePage : Page :=
  { paragraphs := [{ words := [wA, wB] }, { words := [wA, wQ] }, { words := [wA, wR] }] }

def sampleDoc : List Page := [samplePage]

example : pySplit "  ab  cd ".toList = ["ab".toList, "cd".toList] := by decide

/-! Lemmas about `pySplit`, `pyStrip` and `pyJoinSpace`. -/

theorem pySplitAux_word (w : Str) (h : ∀ c ∈ w, pyIsSpace c = false) :
    ∀ rest acc, pySplitAux (w ++ rest) acc = pySplitAux rest (w.reverse ++ acc) := by
  induction w with
  | nil => intro rest acc; simp
  | cons c w ih =>
    intro rest acc
    have hc : pyIsSpace c = false := h c (by simp)
    have hw : ∀ d ∈ w, pyIsSpace d = false := fun d hd => h d (by simp [hd])
    simp [pySplitAux, hc, ih hw]

theorem pySplitAux_spaces (sp : Str) (h : ∀ c ∈ sp, pyIsSpace c = true) :
    ∀ acc, pySplitAux sp acc = if acc.isEmpty then [] else [acc.reverse] := by
  induction sp with
  | nil => intro acc; simp [pySplitAux]
  | cons c sp ih =>
    intro acc
    have hc : pyIsSpace c = true := h c (by simp)
    have hsp : ∀ d ∈ sp, pyIsSpace d = true := fun d hd => h d (by simp [hd])
    by_cases hacc : acc.isEmpty <;> simp [pySplitAux, hc, hacc, ih hsp]

theorem pySplitAux_append_spaces (sp : Str) (hsp : ∀ c ∈ sp, pyIsSpace c = true) :
    ∀ s acc, pySplitAux (s ++ sp) acc = pySplitAux s acc := by
  intro s
  induction s with
  | nil => intro acc; simp [pySplitAux, pySplitAux_spaces sp hsp acc]
  | cons c s ih =>
    intro acc
    cases hc : pyIsSpace c <;> simp [pySplitAux, hc, ih]

theorem pySplitAux_leading_spaces (sp : Str) (hsp : ∀ c ∈ sp, pyIsSpace c = true) :
    ∀ s, pySplitAux (sp ++ s) [] = pySplitAux s [] := by
  induction sp with
  | nil => intro s; simp
  | cons c sp ih =>
    intro s
    have hc : pyIsSpace c = true := hsp c (by simp)
    have hsp' : ∀ d ∈ sp, pyIsSpace d = true := fun d hd => hsp d (by simp [hd])
    simp [pySplitAux, hc, ih hsp']

/-- Stripping does not change how a string splits. -/
theorem pySplit_strip (s : Str) : pySplit (pyStrip s) = pySplit s := by
  have hdec : s = s.takeWhile pyIsSpace ++
      (pyStrip s ++ ((s.dropWhile pyIsSpace).reverse.takeWhile pyIsSpace).reverse) := by
    have h1 : s = s.takeWhile pyIsSpace ++ s.dropWhile pyIsSpace :=
      (List.takeWhile_append_dropWhile (p := pyIsSpace) (l := s)).symm
    have h3 : (s.dropWhile pyIsSpace).reverse =
        List.takeWhile pyIsSpace (s.dropWhile pyIsSpace).reverse ++
          List.dropWhile pyIsSpace (s.dropWhile pyIsSpace).reverse :=
      (List.takeWhile_append_dropWhile (p := pyIsSpace)
        (l := (s.dropWhile pyIsSpace).reverse)).symm
    have h2 := congrArg List.reverse h3
    rw [List.reverse_reverse, List.reverse_append] at h2
    conv_lhs => rw [h1]
    rw [h2]
    simp [pyStrip]
  conv_rhs => rw [show pySplit s = pySplitAux s [] from rfl, hdec]
  rw [pySplitAux_leading_spaces _ (fun c hc => List.mem_takeWhile_imp hc),
    pySplitAux_append_spaces _ (fun c hc => by
      have := List.mem_takeWhile_imp (List.mem_reverse.mp hc)
      exact this)]
  rfl

/-- Splitting the space-join of non-empty, space-free tokens recovers
the tokens. -/
theorem pySplit_join (ts : List Str)
    (h : ∀ t ∈ ts, t ≠ [] ∧ ∀ c ∈ t, pyIsSpace c = false) :
    pySplit (pyJoinSpace ts) = ts := by
  induction ts with
  | nil => rfl
  | cons t ts ih =>
    have ht := h t (by simp)
    have hts : ∀ u ∈ ts, u ≠ [] ∧ ∀ c ∈ u, pyIsSpace c = false :=
      fun u hu => h u (by simp [hu])
    cases ts with
    | nil =>
      show pySplitAux (pyJoinSpace [t]) [] = [t]
      have : pyJoinSpace [t] = t ++ [] := by simp [pyJoinSpace]
      rw [this, pySplitAux_word t ht.2]
      simp [pySplitAux, ht.1]
    | cons u ts' =>
      show pySplitAux (pyJoinSpace (t :: u :: ts')) [] = t :: u :: ts'
      have hj : pyJoinSpace (t :: u :: ts') = t ++ ' ' :: pyJoinSpace (u :: ts') := rfl
      rw [hj, pySplitAux_word t ht.2]
      have haccne : (t.reverse ++ [] : Str).isEmpty = false := by
        simp [List.isEmpty_iff, ht.1]
      have hstep : pySplitAux (' ' :: pyJoinSpace (u :: ts')) (t.reverse ++ []) =
          (t.reverse ++ []).reverse :: pySplitAux (pyJoinSpace (u :: ts')) [] := by
        simp [pySplitAux, pyIsSpace, haccne, ht.1]
      rw [hstep]
      exact List.cons_eq_cons.mpr ⟨by simp [ht.1], ih hts⟩

/-- Every token produced by `pySplitAux` is non-empty and space-free. -/
theorem pySplitAux_good (s : Str) :
    ∀ acc, (∀ c ∈ acc, pyIsSpace c = false) →
      ∀ t ∈ pySplitAux s acc, t ≠ [] ∧ ∀ c ∈ t, pyIsSpace c = false := by
  induction s with
  | nil =>
    intro acc hacc t ht
    by_cases hacce : acc.isEmpty
    · simp [pySplitAux, hacce] at ht
    · simp [pySplitAux, hacce] at ht
      subst ht
      constructor
      · simpa [List.isEmpty_iff] using hacce
      · intro c hc; exact hacc c (List.mem_reverse.mp hc)
  | cons c s ih =>
    intro acc hacc t ht
    cases hc : pyIsSpace c with
    | true =>
      by_cases hacce : acc.isEmpty
      · simp [pySplitAux, hc, hacce] at ht
        exact ih [] (by simp) t ht
      · simp [pySplitAux, hc, hacce] at ht
        rcases ht with ht | ht
        · subst ht
          constructor
          · simpa [List.isEmpty_iff] using hacce
          · intro d hd; exact hacc d (List.mem_reverse.mp hd)
        · exact ih [] (by simp) t ht
    | false =>
      simp only [pySplitAux, hc] at ht
      simp at ht
      refine ih (c :: acc) ?_ t ht
      intro d hd
      rcases List.mem_cons.mp hd with rfl | hd
      · exact hc
      · exact hacc d hd

/-- Every token of `pySplit` is non-empty and space-free. -/
theorem pySplit_good (s : Str) :
    ∀ t ∈ pySplit s, t ≠ [] ∧ ∀ c ∈ t, pyIsSpace c = false :=
  pySplitAux_good s [] (by simp)

/-! Lemmas about the window test and the position finders. -/

theorem windowMatches_iff (ts : List Str) : ∀ ws : List Word,
    windowMatches ts ws = true ↔
      ts.length ≤ ws.length ∧
        ∀ j < ts.length,
          words_match (pyStrip ((ws.getD j default).text)) (ts.getD j []) = true := by
  induction ts with
  | nil => intro ws; simp [windowMatches]
  | cons t ts ih =>
    intro ws
    cases ws with
    | nil => simp [windowMatches]
    | cons w ws =>
      rw [show windowMatches (t :: ts) (w :: ws) =
        (words_match (pyStrip w.text) t && windowMatches ts ws) from rfl,
        Bool.and_eq_true, ih ws]
      constructor
      · rintro ⟨h1, h2, h3⟩
        refine ⟨by simpa using h2, ?_⟩
        intro j hj
        cases j with
        | zero => simpa using h1
        | succ j => simpa using h3 j (by simpa using hj)
      · rintro ⟨h1, h2⟩
        refine ⟨by simpa using h2 0 (by simp), by simpa using h1, ?_⟩
        intro j hj
        simpa using h2 (j + 1) (by simpa using hj)

theorem mem_fwp (target : Str) (pws : List Word) (i : Nat) :
    i ∈ find_word_positions_in_paragraph target pws ↔
      ∃ start,
        windowMatches (pySplit (pyStrip target)) (pws.drop start) = true ∧
        start + (pySplit (pyStrip target)).length ≤ pws.length ∧
        start ≤ i ∧ i < start + (pySplit (pyStrip target)).length := by
  unfold find_word_positions_in_paragraph
  by_cases he : (pySplit (pyStrip target)).isEmpty
  · rw [List.isEmpty_iff] at he
    simp [he]
  · rw [List.isEmpty_iff] at he
    simp only [List.isEmpty_iff, he, if_false, List.mem_flatMap, List.mem_range]
    constructor
    · rintro ⟨start, hstart, hmem⟩
      by_cases hw : windowMatches (pySplit (pyStrip target)) (pws.drop start) = true
      · rw [if_pos hw] at hmem
        simp only [List.mem_map, List.mem_range] at hmem
        obtain ⟨j, hj, rfl⟩ := hmem
        exact ⟨start, hw, by omega, by omega, by omega⟩
      · rw [if_neg hw] at hmem
        simp at hmem
    · rintro ⟨start, hw, hle, hi1, hi2⟩
      refine ⟨start, by omega, ?_⟩
      rw [if_pos hw]
      simp only [List.mem_map, List.mem_range]
      exact ⟨i - start, by omega, by omega⟩

theorem getD_drop' (l : List Word) (off j : Nat) :
    (l.drop off).getD j default = l.getD (off + j) default := by
  simp [List.getD_eq_getElem?_getD, List.getElem?_drop]

theorem mem_fcm (frag : Str) (pws : List Word) (i : Nat) :
    i ∈ find_contiguous_matches frag pws ↔
      ∃ s d, s < (pySplit frag).length ∧ d < (pySplit frag).length - s ∧
        i ∈ find_word_positions_in_paragraph
            (pyJoinSpace (((pySplit frag).drop s).take (d + 1))) pws := by
  unfold find_contiguous_matches
  simp [List.mem_flatMap, List.mem_range]

/-- Every position produced by `find_contiguous_matches` is inside the
paragraph. -/
theorem fcm_lt_length (frag : Str) (pws : List Word) :
    ∀ i ∈ find_contiguous_matches frag pws, i < pws.length := by
  intro i hi
  rw [mem_fcm] at hi
  obtain ⟨s, d, _, _, hmem⟩ := hi
  rw [mem_fwp] at hmem
  obtain ⟨start, _, hle, _, h2⟩ := hmem
  omega

/-! Lemmas about the selector loop. -/

/-- The `mkRat` form used in `calculate_match_score` is exactly the
rational division `unique_matches / total_words` of the source. -/
theorem calculate_match_score_div_form (u t : Nat) :
    mkRat (u : Int) t = (u : ℚ) / (t : ℚ) := by
  rw [Rat.mkRat_eq_div]
  norm_num

/-- A paragraph that passes the length guard and the substring test
scores exactly 1. -/
theorem calculate_eq_one (frag norm : Str) (pws : List Word)
    (hne : pws ≠ []) (hlen : frag.length ≤ (paragraphText pws).length)
    (hsub : isSubstr norm (paragraphText pws) = true) :
    calculate_match_score frag pws norm = 1 := by
  have h1 : pws.isEmpty = false := by simp [List.isEmpty_iff, hne]
  have h2 : ¬((paragraphText pws).length < frag.length) := by omega
  simp [calculate_match_score, h1, h2, hsub]

/-- Scanning entries that do not score 1 and then an entry that does
returns that entry with score 1, whatever comes afterwards and whatever
the running best is. -/
theorem fbmLoop_reaches_one (cleaned norm : Str) (doc : List Page) (pi qi : Nat)
    (post : List (Nat × Nat))
    (hne : nonEmptyWords (paraAt doc pi qi) ≠ [])
    (hone : calculate_match_score cleaned (nonEmptyWords (paraAt doc pi qi)) norm = 1) :
    ∀ pre : List (Nat × Nat),
      (∀ e ∈ pre,
        calculate_match_score cleaned (nonEmptyWords (paraAt doc e.1 e.2)) norm ≠ 1) →
      ∀ best info,
        fbmLoop cleaned norm doc (pre ++ (pi, qi) :: post) best info
          = (1, some (pi, qi, nonEmptyWords (paraAt doc pi qi))) := by
  intro pre
  induction pre with
  | nil =>
    intro _ best info
    have h1 : (nonEmptyWords (paraAt doc pi qi)).isEmpty = false := by
      simp [List.isEmpty_iff, hne]
    simp [fbmLoop, h1, hone]
  | cons e pre ih =>
    intro hpre best info
    have he := hpre e (by simp)
    have hpre' : ∀ e' ∈ pre,
        calculate_match_score cleaned (nonEmptyWords (paraAt doc e'.1 e'.2)) norm ≠ 1 :=
      fun e' h' => hpre e' (by simp [h'])
    obtain ⟨pi', qi'⟩ := e
    dsimp only at he
    rw [List.cons_append]
    show fbmLoop cleaned norm doc ((pi', qi') :: (pre ++ (pi, qi) :: post)) best info = _
    rw [fbmLoop]
    by_cases h1 : (nonEmptyWords (paraAt doc pi' qi')).isEmpty = true
    · rw [if_pos h1]; exact ih hpre' best info
    · rw [if_neg h1, if_neg he]
      by_cases h3 : best < calculate_match_score cleaned (nonEmptyWords (paraAt doc pi' qi')) norm
      · rw [if_pos h3]; exact ih hpre' _ _
      · rw [if_neg h3]; exact ih hpre' best info

/-- Once the running best is `s` with info `info0` and every remaining
entry scores at most `s` and never 1, the loop keeps `(s, info0)`. -/
theorem fbmLoop_keep (cleaned norm : Str) (doc : List Page) (s : ℚ)
    (info0 : Option (Nat × Nat × List Word)) :
    ∀ post : List (Nat × Nat),
      (∀ e ∈ post,
        calculate_match_score cleaned (nonEmptyWords (paraAt doc e.1 e.2)) norm ≠ 1 ∧
        calculate_match_score cleaned (nonEmptyWords (paraAt doc e.1 e.2)) norm ≤ s) →
      fbmLoop cleaned norm doc post s info0 = (s, info0) := by
  intro post
  induction post with
  | nil => intro _; rfl
  | cons e post ih =>
    intro hpost
    have he := hpost e (by simp)
    have hpost' := fun e' (h' : e' ∈ post) => hpost e' (by simp [h'])
    obtain ⟨pi', qi'⟩ := e
    obtain ⟨he1, he2⟩ := he
    dsimp only at he1 he2
    rw [fbmLoop]
    by_cases h1 : (nonEmptyWords (paraAt doc pi' qi')).isEmpty = true
    · rw [if_pos h1]; exact ih hpost'
    · rw [if_neg h1, if_neg he1, if_neg (not_lt.mpr he2)]
      exact ih hpost'

/-- Scanning entries that all score strictly below `s` (and never 1)
only moves the running best upward but keeps it strictly below `s`. -/
theorem fbmLoop_climb (cleaned norm : Str) (doc : List Page) (s : ℚ) :
    ∀ (pre : List (Nat × Nat)) (best : ℚ) (info : Option (Nat × Nat × List Word)),
      best < s →
      (∀ e ∈ pre,
        calculate_match_score cleaned (nonEmptyWords (paraAt doc e.1 e.2)) norm ≠ 1 ∧
        calculate_match_score cleaned (nonEmptyWords (paraAt doc e.1 e.2)) norm < s) →
      ∀ rest : List (Nat × Nat), ∃ best' info', best' < s ∧
        fbmLoop cleaned norm doc (pre ++ rest) best info
          = fbmLoop cleaned norm doc rest best' info' := by
  intro pre
  induction pre with
  | nil => intro best info hbest _ rest; exact ⟨best, info, hbest, rfl⟩
  | cons e pre ih =>
    intro best info hbest hpre rest
    have he := hpre e (by simp)
    have hpre' := fun e' (h' : e' ∈ pre) => hpre e' (by simp [h'])
    obtain ⟨pi', qi'⟩ := e
    obtain ⟨he1, he2⟩ := he
    dsimp only at he1 he2
    rw [List.cons_append]
    show ∃ best' info', best' < s ∧
      fbmLoop cleaned norm doc ((pi', qi') :: (pre ++ rest)) best info = _
    rw [fbmLoop]
    by_cases h1 : (nonEmptyWords (paraAt doc pi' qi')).isEmpty = true
    · rw [if_pos h1]; exact ih best info hbest hpre' rest
    · rw [if_neg h1, if_neg he1]
      by_cases h3 : best < calculate_match_score cleaned (nonEmptyWords (paraAt doc pi' qi')) norm
      · rw [if_pos h3]; exact ih _ _ he2 hpre' rest
      · rw [if_neg h3]; exact ih best info hbest hpre' rest

/-- The output of `find_contiguous_matches` has exactly the membership
the specification describes: an index is produced iff it lies in some
window matching some contiguous sub-phrase of the fragment. -/
theorem fcm_mem_iff_spec (frag : Str) (pws : List Word) (i : Nat) :
    i ∈ find_contiguous_matches frag pws ↔ SpecMatchedIndex frag pws i := by
  rw [mem_fcm]
  constructor
  · rintro ⟨s, d, hs, hd, hmem⟩
    have hgood : ∀ t ∈ ((pySplit frag).drop s).take (d + 1),
        t ≠ [] ∧ ∀ c ∈ t, pyIsSpace c = false :=
      fun t ht => pySplit_good frag t (List.mem_of_mem_drop (List.mem_of_mem_take ht))
    have hsplit :
        pySplit (pyStrip (pyJoinSpace (((pySplit frag).drop s).take (d + 1)))) =
          ((pySplit frag).drop s).take (d + 1) := by
      rw [pySplit_strip, pySplit_join _ hgood]
    rw [mem_fwp, hsplit] at hmem
    obtain ⟨off, hw, hle, hi1, hi2⟩ := hmem
    have hlen : (((pySplit frag).drop s).take (d + 1)).length = d + 1 := by
      rw [List.length_take, List.length_drop]; omega
    obtain ⟨hwl, hptw⟩ := (windowMatches_iff _ (pws.drop off)).mp hw
    rw [List.length_drop] at hwl
    refine ⟨s, s + (d + 1), off, by omega, by omega, ?_, by omega, by omega⟩
    have hes : s + (d + 1) - s = d + 1 := by omega
    rw [hes]
    constructor
    · omega
    · intro j hj
      have := hptw j (by omega)
      rwa [getD_drop'] at this
  · rintro ⟨s, e, off, hse, hel, ⟨hoffle, hptw⟩, hi1, hi2⟩
    have hlen : (((pySplit frag).drop s).take (e - s)).length = e - s := by
      rw [List.length_take, List.length_drop]; omega
    refine ⟨s, e - s - 1, by omega, by omega, ?_⟩
    have he' : e - s - 1 + 1 = e - s := by omega
    rw [he']
    have hgood : ∀ t ∈ ((pySplit frag).drop s).take (e - s),
        t ≠ [] ∧ ∀ c ∈ t, pyIsSpace c = false :=
      fun t ht => pySplit_good frag t (List.mem_of_mem_drop (List.mem_of_mem_take ht))
    have hsplit :
        pySplit (pyStrip (pyJoinSpace (((pySplit frag).drop s).take (e - s)))) =
          ((pySplit frag).drop s).take (e - s) := by
      rw [pySplit_strip, pySplit_join _ hgood]
    rw [mem_fwp, hsplit]
    refine ⟨off, ?_, by omega, by omega, by omega⟩
    rw [windowMatches_iff]
    constructor
    · rw [List.length_drop]; omega
    · intro j hj
      rw [getD_drop']
      exact hptw j (by omega)
example : pyStrip "  ab c ".toList = "ab c".toList := by decide
example : words_match "Contractul,".toList "contractul".toList = true := by decide
example : words_match "NR.".toList "nr".toList = true := by decide
example : isSubstr "b c".toList "ab cd".toList = true := by decide
example :
    remove_duplicate_paragraphs_from_end
      ["<p>A</p>".toList, "<p>B</p>".toList, "<p>B</p>".toList, "<p>B</p>".toList]
      = ["<p>A</p>".toList, "<p>B</p>".toList] := by decide
example :
    remove_duplicate_paragraphs_from_end ["X".toList, "X".toList]
      = ["X".toList, "X".toList] := by decide

/-! Frame lemmas for the merge step. -/

theorem wordFrame_refl (t : AnnType) (w : Word) : WordFrame t w w :=
  ⟨rfl, rfl, rfl, rfl, rfl, rfl, rfl, fun _ _ => rfl, fun h => h, fun h => absurd rfl h⟩

theorem wordFrame_trans (t : AnnType) (a b c : Word)
    (h1 : WordFrame t a b) (h2 : WordFrame t b c) : WordFrame t a c := by
  obtain ⟨t1, i1, l1, p1, w1, g1, e1, o1, m1, c1⟩ := h1
  obtain ⟨t2, i2, l2, p2, w2, g2, e2, o2, m2, c2⟩ := h2
  refine ⟨t2.trans t1, i2.trans i1, l2.trans l1, p2.trans p1, w2.trans w1, g2.trans g1,
    e2.trans e1, fun t' ht' => (o2 t' ht').trans (o1 t' ht'), fun h => m2 (m1 h), ?_⟩
  intro hne
  by_cases hcb : getFlag t c = getFlag t b
  · rw [hcb]
    exact c1 fun hba => hne (hcb.trans hba)
  · exact c2 hcb

theorem getFlag_setFlag_ne (t t' : AnnType) (w : Word) (h : t' ≠ t) :
    getFlag t' (setFlag t w) = getFlag t' w := by
  cases t <;> cases t' <;> first
    | exact absurd rfl h
    | simp [setFlag, getFlag]

theorem getFlag_setFlag_self (t : AnnType) (w : Word) :
    getFlag t (setFlag t w) = true := by
  cases t <;> simp [setFlag, getFlag]

theorem wordFrame_setFlag (t : AnnType) (w : Word) : WordFrame t w (setFlag t w) := by
  refine ⟨?_, ?_, ?_, ?_, ?_, ?_, ?_, fun t' ht' => getFlag_setFlag_ne t t' w ht',
    fun _ => getFlag_setFlag_self t w, fun _ => getFlag_setFlag_self t w⟩ <;>
    cases t <;> simp [setFlag]

theorem paraFrame_refl (t : AnnType) (pr : Paragraph) : ParaFrame t pr pr :=
  ⟨rfl, List.forall₂_same.mpr fun w _ => wordFrame_refl t w⟩

theorem forall2_trans_of {α : Type} {R : α → α → Prop}
    (htrans : ∀ a b c, R a b → R b c → R a c) :
    ∀ {xs ys zs : List α}, List.Forall₂ R xs ys → List.Forall₂ R ys zs →
      List.Forall₂ R xs zs := by
  intro xs ys zs h1
  induction h1 generalizing zs with
  | nil => intro h2; cases h2; exact List.Forall₂.nil
  | cons hab hrest ih =>
    intro h2
    cases h2 with
    | cons hbc hrest2 => exact List.Forall₂.cons (htrans _ _ _ hab hbc) (ih hrest2)

theorem paraFrame_trans (t : AnnType) (a b c : Paragraph)
    (h1 : ParaFrame t a b) (h2 : ParaFrame t b c) : ParaFrame t a c :=
  ⟨h2.1.trans h1.1, forall2_trans_of (wordFrame_trans t) h1.2 h2.2⟩

theorem pageFrame_refl (t : AnnType) (pg : Page) : PageFrame t pg pg :=
  ⟨rfl, rfl, rfl, List.forall₂_same.mpr fun pr _ => paraFrame_refl t pr⟩

theorem pageFrame_trans (t : AnnType) (a b c : Page)
    (h1 : PageFrame t a b) (h2 : PageFrame t b c) : PageFrame t a c :=
  ⟨h2.1.trans h1.1, h2.2.1.trans h1.2.1, h2.2.2.1.trans h1.2.2.1,
    forall2_trans_of (paraFrame_trans t) h1.2.2.2 h2.2.2.2⟩

theorem docFrame_refl (t : AnnType) (doc : List Page) :
    List.Forall₂ (PageFrame t) doc doc :=
  List.forall₂_same.mpr fun pg _ => pageFrame_refl t pg

theorem applyFlags_frame (t : AnnType) (positions : List Nat) :
    ∀ (ws : List Word) (fi : Nat),
      List.Forall₂ (WordFrame t) ws (applyFlags t positions ws fi) := by
  intro ws
  induction ws with
  | nil => intro fi; exact List.Forall₂.nil
  | cons w ws ih =>
    intro fi
    rw [applyFlags]
    by_cases h1 : (pyStrip w.text).isEmpty = true
    · rw [if_pos h1]
      exact List.Forall₂.cons (wordFrame_refl t w) (ih fi)
    · rw [if_neg h1]
      by_cases h2 : fi ∈ positions
      · rw [if_pos h2]
        exact List.Forall₂.cons (wordFrame_setFlag t w) (ih (fi + 1))
      · rw [if_neg h2]
        exact List.Forall₂.cons (wordFrame_refl t w) (ih (fi + 1))

theorem forall2_mapIdx {α : Type} {R : α → α → Prop} :
    ∀ (l : List α) (f : Nat → α → α), (∀ i x, R x (f i x)) →
      List.Forall₂ R l (l.mapIdx f) := by
  intro l
  induction l with
  | nil => intro f h; simp
  | cons a l ih =>
    intro f h
    rw [List.mapIdx_cons]
    exact List.Forall₂.cons (h 0 a) (ih _ fun i x => h (i + 1) x)

theorem updatePara_frame (t : AnnType) (doc : List Page) (pi qi : Nat)
    (g : Paragraph → Paragraph) (hg : ∀ pr, ParaFrame t pr (g pr)) :
    List.Forall₂ (PageFrame t) doc (updatePara doc pi qi g) := by
  refine forall2_mapIdx doc _ fun i pg => ?_
  by_cases h : i = pi
  · rw [if_pos h]
    refine ⟨rfl, rfl, rfl, ?_⟩
    refine forall2_mapIdx pg.paragraphs _ fun j pr => ?_
    by_cases hq : j = qi
    · rw [if_pos hq]; exact hg pr
    · rw [if_neg hq]; exact paraFrame_refl t pr
  · rw [if_neg h]; exact pageFrame_refl t pg

theorem process_fragment_frame (t : AnnType) (mapping : List (Nat × Nat))
    (doc : List Page) (frag : Str) :
    List.Forall₂ (PageFrame t) doc (process_fragment t mapping doc frag) := by
  unfold process_fragment
  by_cases h1 : (pyStrip frag).isEmpty = true
  · rw [if_pos h1]; exact docFrame_refl t doc
  · rw [if_neg h1]
    rcases hres : find_best_matching_paragraph (pyStrip frag) mapping doc with ⟨score, info⟩
    cases info with
    | none => simp only [hres]; exact docFrame_refl t doc
    | some trip =>
      obtain ⟨pi, qi, pws⟩ := trip
      simp only [hres]
      by_cases h2 : mkRat 1 10 < score
      · rw [if_pos h2]
        exact updatePara_frame t doc pi qi _ fun pr =>
          ⟨rfl, applyFlags_frame t _ pr.words 0⟩
      · rw [if_neg h2]; exact docFrame_refl t doc

theorem process_fragments_frame (t : AnnType) (mapping : List (Nat × Nat)) :
    ∀ (frags : List Str) (doc : List Page),
      List.Forall₂ (PageFrame t) doc (process_fragments t mapping doc frags) := by
  intro frags
  induction frags with
  | nil => intro doc; exact docFrame_refl t doc
  | cons f fs ih =>
    intro doc
    show List.Forall₂ (PageFrame t) doc
      (process_fragments t mapping (process_fragment t mapping doc f) fs)
    exact forall2_trans_of (pageFrame_trans t)
      (process_fragment_frame t mapping doc f)
      (ih (process_fragment t mapping doc f))

/-! Lemmas about the trailing-duplicate trimmer. -/

/-- On a list whose elements are all strip-equal, the backward scan
keeps exactly the first two elements it may not compare. -/
theorem rdLoop_all_eq :
    ∀ l : List Str, 2 ≤ l.length →
      (∀ a ∈ l, ∀ b ∈ l, pyStrip a = pyStrip b) → (rdLoop l).length = 2 := by
  intro l
  induction l with
  | nil => intro h; simp at h
  | cons a l ih =>
    intro hlen hall
    cases l with
    | nil => simp at hlen
    | cons b l' =>
      cases l' with
      | nil => rfl
      | cons c l'' =>
        have hab : pyStrip a = pyStrip b := hall a (by simp) b (by simp)
        rw [rdLoop, if_pos hab]
        refine ih (by simp) ?_
        intro x hx y hy
        exact hall x (by simp [hx]) y (by simp [hy])

/-- The backward scan stops immediately when the two elements at the
end (head of the reversed list) are not strip-equal. -/
theorem rdLoop_pair_stop (x y : Str) (r : List Str) (h : pyStrip y ≠ pyStrip x) :
    rdLoop (y :: x :: r) = y :: x :: r := by
  cases r with
  | nil => rfl
  | cons c r' => rw [rdLoop, if_neg h]

/-! Lemmas about the word normalizer. -/

/-- A character that is not a word character is unchanged by
lowercasing: lowercasing only moves uppercase (word) characters. -/
theorem pyLower_id_of_not_word (c : Char) (h : pyWordChar c = false) : pyLower c = c := by
  have h' := h
  simp only [pyWordChar, Bool.or_eq_false_iff, Char.isAlphanum, Char.isAlpha] at h'
  obtain ⟨⟨⟨hup, _⟩, _⟩, hrom⟩ := h'
  simp only [romanianLetter, Bool.or_eq_false_iff, decide_eq_false_iff_not] at hrom
  obtain ⟨⟨⟨⟨⟨⟨⟨⟨⟨_, k2⟩, _⟩, k4⟩, _⟩, k6⟩, _⟩, k8⟩, _⟩, k10⟩ := hrom
  unfold pyLower
  rw [if_neg (by simp [Bool.or_eq_false_iff] at hup ⊢; simp [hup.1]),
    if_neg k2, if_neg k4, if_neg k6, if_neg k8, if_neg k10]

/-! Claim theorems. -/

/-- C1 (counterexample): the fragment `"a  b"` (double internal space)
whitespace-normalizes to `"a b"`, which is a literal substring of the
whitespace-joined text of the non-empty paragraph `["a", "b"]`; the
claim then demands score 1.0 and selection of that paragraph, but the
selector returns `(0, none)` because the length fast-reject compares
the paragraph text against the *raw* fragment, which is longer. -/
theorem exact_containment_counterexample :
    isSubstr (normFragment "a  b".toList) (paragraphText (entryWords sampleDoc (0, 0))) = true ∧
    entryWords sampleDoc (0, 0) ≠ [] ∧
    find_best_matching_paragraph "a  b".toList [(0, 0)] sampleDoc = (0, none) :=
  ⟨by decide, by decide, by decide⟩

/-- C1 (amended): if the whitespace-normalized fragment is a literal
substring of a non-empty paragraph's whitespace-joined word text AND
that paragraph text is at least as long (in characters) as the raw
fragment, the Paragraph Scorer returns 1.0 there, and the
Best-Paragraph Selector — having seen no earlier paragraph scoring
1.0 — stops at that paragraph and returns it with score 1.0,
regardless of all later candidates. -/
theorem exact_containment_short_circuits
    (frag : Str) (doc : List Page) (pre post : List (Nat × Nat)) (pi qi : Nat)
    (hpre : ∀ e ∈ pre, entryScore frag doc e ≠ 1)
    (hne : entryWords doc (pi, qi) ≠ [])
    (hlen : frag.length ≤ (paragraphText (entryWords doc (pi, qi))).length)
    (hsub : isSubstr (normFragment frag) (paragraphText (entryWords doc (pi, qi))) = true) :
    find_best_matching_paragraph frag (pre ++ (pi, qi) :: post) doc
      = (1, some (pi, qi, entryWords doc (pi, qi))) := by
  have hone : calculate_match_score frag (nonEmptyWords (paraAt doc pi qi))
      (normFragment frag) = 1 :=
    calculate_eq_one frag (normFragment frag) (nonEmptyWords (paraAt doc pi qi)) hne hlen hsub
  unfold find_best_matching_paragraph
  exact fbmLoop_reaches_one frag (normFragment frag) doc pi qi post hne hone pre hpre 0 none

/-- Witness for the amended C1: fragment `"a b"` against a document
whose second mapped paragraph is exactly `"a b"`; the first paragraph
scores 1/2 and the third would also match but is never reached. -/
theorem exact_containment_short_circuits_witness :
    (∀ e ∈ [((0 : Nat), (1 : Nat))], entryScore "a b".toList sampleDoc e ≠ 1) ∧
    entryWords sampleDoc (0, 0) ≠ [] ∧
    find_best_matching_paragraph "a b".toList [(0, 1), (0, 0), (0, 2)] sampleDoc
      = (1, some (0, 0, entryWords sampleDoc (0, 0))) :=
  ⟨by decide, by decide,
    exact_containment_short_circuits "a b".toList sampleDoc [(0, 1)] [(0, 2)] 0 0
      (by decide) (by decide) (by decide) (by decide)⟩

/-- C2 (counterexample): the claim says every list of length ≥ 2 whose
elements are all equal after trimming reduces to exactly one element;
but on `["<p>B</p>", "<p>B</p>"]` the trimmer returns both elements,
because the loop only runs while the current index exceeds 1. -/
theorem trim_duplicates_counterexample :
    (remove_duplicate_paragraphs_from_end ["<p>B</p>".toList, "<p>B</p>".toList]).length ≠ 1 := by
  decide

/-- C2 (amended): the trimmer scans from the end and removes the last
element while it strip-equals its predecessor AND its index exceeds 1,
so the first two elements are never compared: every list of length ≥ 2
whose elements are all strip-equal reduces to exactly TWO elements
(not one); `["<p>A</p>", "<p>B</p>", "<p>B</p>", "<p>B</p>"]` reduces
to `["<p>A</p>", "<p>B</p>"]`; and a list ending in a non-duplicate
pair is unchanged. -/
theorem trim_duplicates_amended :
    (∀ l : List Str, 2 ≤ l.length → (∀ a ∈ l, ∀ b ∈ l, pyStrip a = pyStrip b) →
      (remove_duplicate_paragraphs_from_end l).length = 2) ∧
    remove_duplicate_paragraphs_from_end
      ["<p>A</p>".toList, "<p>B</p>".toList, "<p>B</p>".toList, "<p>B</p>".toList]
      = ["<p>A</p>".toList, "<p>B</p>".toList] ∧
    (∀ (front : List Str) (x y : Str), pyStrip x ≠ pyStrip y →
      remove_duplicate_paragraphs_from_end (front ++ [x, y]) = front ++ [x, y]) := by
  refine ⟨?_, by decide, ?_⟩
  · intro l hlen hall
    unfold remove_duplicate_paragraphs_from_end
    rw [if_neg (by omega), List.length_reverse]
    refine rdLoop_all_eq l.reverse (by simpa using hlen) ?_
    intro a ha b hb
    exact hall a (List.mem_reverse.mp ha) b (List.mem_reverse.mp hb)
  · intro front x y hxy
    unfold remove_duplicate_paragraphs_from_end
    rw [if_neg (by simp)]
    have hrev : (front ++ [x, y]).reverse = y :: x :: front.reverse := by simp
    rw [hrev, rdLoop_pair_stop x y front.reverse (fun h => hxy h.symm), ← hrev,
      List.reverse_reverse]

/-- Witness for the amended C2: the all-equal pair `["X", "X"]` keeps
both elements. -/
theorem trim_duplicates_amended_witness :
    (remove_duplicate_paragraphs_from_end ["X".toList, "X".toList]).length = 2 :=
  trim_duplicates_amended.1 ["X".toList, "X".toList] (by decide) (by decide)

/-- C3 (counterexample): for the fragment `"a b c"` and the one-word
paragraph `["a"]` — shorter than the fragment but partially contained
in it — the scorer returns 0 even though the fuzzy ratio (unique
matched indices over word count) would be 1: the length fast-reject
aborts the whole scorer, not just the exact branch. -/
theorem shorter_paragraph_counterexample :
    calculate_match_score "a b c".toList [wA] "a b c".toList = 0 ∧
    (((find_contiguous_matches "a b c".toList [wA]).dedup.length : ℚ) /
      (([wA] : List Word).length : ℚ)) = 1 := by
  constructor
  · decide
  · have h : (find_contiguous_matches "a b c".toList [wA]).dedup.length = 1 := by decide
    rw [h]
    norm_num

/-- C3 (amended): when the paragraph's joined text is shorter (in
characters) than the fragment, `calculate_match_score` returns 0
outright — the fuzzy path is never evaluated for such a paragraph. -/
theorem shorter_paragraph_scores_zero (frag norm : Str) (pws : List Word)
    (h : (paragraphText pws).length < frag.length) :
    calculate_match_score frag pws norm = 0 := by
  unfold calculate_match_score
  by_cases he : pws.isEmpty = true
  · rw [if_pos he]
  · rw [if_neg he, if_pos h]

/-- Witness for the amended C3: the counterexample input evaluates the
theorem's hypothesis and conclusion concretely. -/
theorem shorter_paragraph_scores_zero_witness :
    (paragraphText [wA]).length < "a b c".toList.length ∧
    calculate_match_score "a b c".toList [wA] "xyz".toList = 0 :=
  ⟨by decide, shorter_paragraph_scores_zero "a b c".toList "xyz".toList [wA] (by decide)⟩

/-- C4: the Contiguous Match Finder produces (up to collapsing
duplicates) exactly the set of paragraph indices covered by some
window, at some offset, matching token-by-token (via the Word
Normalizer) some contiguous sub-phrase of the fragment's
whitespace-split tokens — all start/end pairs, single tokens and the
full fragment included. -/
theorem contiguous_matches_exactly_spec (frag : Str) (pws : List Word) (i : Nat) :
    i ∈ (find_contiguous_matches frag pws).dedup ↔ SpecMatchedIndex frag pws i := by
  rw [List.mem_dedup]
  exact fcm_mem_iff_spec frag pws i

/-- C5 (counterexample): the claim's normalization — keep only
letters, digits and whitespace — equates `"a_"` with `"a"`, but
`words_match` keeps the underscore (Python `\w` includes it) and
declares them different. -/
theorem words_match_counterexample :
    specCleanC5 "a_".toList = specCleanC5 "a".toList ∧
    words_match "a_".toList "a".toList = false :=
  ⟨by decide, by decide⟩

/-- C5 (amended): two words match iff, after lowercasing and dropping
every character that is not a word character (letter, digit, or
underscore) and not whitespace, the results are exactly equal;
`"Contractul,"` matches `"contractul"` and `"NR."` matches `"nr"`. -/
theorem words_match_iff_normalized_eq :
    (∀ w1 w2 : Str, words_match w1 w2 = true ↔ specCleanAmended w1 = specCleanAmended w2) ∧
    words_match "Contractul,".toList "contractul".toList = true ∧
    words_match "NR.".toList "nr".toList = true := by
  refine ⟨?_, by decide, by decide⟩
  have hclean : ∀ w : Str, cleanWord w = specCleanAmended w := by
    intro w
    unfold cleanWord specCleanAmended
    refine List.filter_congr ?_
    intro c _
    simp [pyWordChar, Char.isAlphanum, Bool.or_comm, Bool.or_left_comm, Bool.or_assoc]
  intro w1 w2
  rw [words_match, beq_iff_eq, hclean, hclean]

/-- C6: when no candidate scores 1.0 and candidate `k` is the first to
attain the (positive) maximum score `s`, the selector returns exactly
that candidate with score `s` — equal later scores never replace it. -/
theorem first_maximum_selected
    (frag : Str) (doc : List Page) (mapping : List (Nat × Nat)) (k : Nat)
    (ek : Nat × Nat) (s : ℚ)
    (h1 : ∀ e ∈ mapping, entryScore frag doc e ≠ 1)
    (hk : mapping[k]? = some ek)
    (hs : entryScore frag doc ek = s)
    (hpos : 0 < s)
    (hfirst : ∀ j, j < k → ∀ ej, mapping[j]? = some ej → entryScore frag doc ej < s)
    (hmax : ∀ e ∈ mapping, entryScore frag doc e ≤ s) :
    find_best_matching_paragraph frag mapping doc
      = (s, some (ek.1, ek.2, entryWords doc ek)) := by
  obtain ⟨hklen, hkval⟩ := List.getElem?_eq_some_iff.mp hk
  have hdecomp : mapping = mapping.take k ++ ek :: mapping.drop (k + 1) := by
    conv_lhs => rw [← List.take_append_drop k mapping]
    congr 1
    rw [List.drop_eq_getElem_cons hklen, hkval]
  have hmem_ek : ek ∈ mapping := by rw [hdecomp]; simp
  have hs1 : s ≠ 1 := fun h => (h1 ek hmem_ek) (hs.trans h)
  have hne : nonEmptyWords (paraAt doc ek.1 ek.2) ≠ [] := by
    intro hemp
    have hs' : calculate_match_score frag (nonEmptyWords (paraAt doc ek.1 ek.2))
        (normFragment frag) = s := hs
    rw [hemp] at hs'
    simp [calculate_match_score] at hs'
    exact absurd hs'.symm (ne_of_gt hpos)
  have hpre : ∀ e ∈ mapping.take k,
      calculate_match_score frag (nonEmptyWords (paraAt doc e.1 e.2)) (normFragment frag) ≠ 1 ∧
      calculate_match_score frag (nonEmptyWords (paraAt doc e.1 e.2)) (normFragment frag) < s := by
    intro e he
    refine ⟨h1 e (List.mem_of_mem_take he), ?_⟩
    obtain ⟨j, hj⟩ := List.mem_iff_getElem?.mp he
    have hjk : j < k := by
      obtain ⟨hlt, _⟩ := List.getElem?_eq_some_iff.mp hj
      rw [List.length_take] at hlt
      omega
    rw [List.getElem?_take_of_lt hjk] at hj
    exact hfirst j hjk e hj
  have hpost : ∀ e ∈ mapping.drop (k + 1),
      calculate_match_score frag (nonEmptyWords (paraAt doc e.1 e.2)) (normFragment frag) ≠ 1 ∧
      calculate_match_score frag (nonEmptyWords (paraAt doc e.1 e.2)) (normFragment frag) ≤ s :=
    fun e he => ⟨h1 e (List.mem_of_mem_drop he), hmax e (List.mem_of_mem_drop he)⟩
  unfold find_best_matching_paragraph
  conv_lhs => rw [hdecomp]
  obtain ⟨best', info', hb', heq⟩ :=
    fbmLoop_climb frag (normFragment frag) doc s (mapping.take k) 0 none hpos hpre
      (ek :: mapping.drop (k + 1))
  rw [heq]
  obtain ⟨epi, eqi⟩ := ek
  have hs' : calculate_match_score frag (nonEmptyWords (paraAt doc epi eqi))
      (normFragment frag) = s := hs
  have hne' : ¬((nonEmptyWords (paraAt doc epi eqi)).isEmpty = true) := by
    simpa [List.isEmpty_iff] using hne
  rw [fbmLoop, if_neg hne', hs', if_neg hs1, if_pos hb']
  exact fbmLoop_keep frag (normFragment frag) doc s _ (mapping.drop (k + 1)) hpost

set_option maxHeartbeats 2000000 in
/-- Witness for C6: fragment `"a x"` scores 1/2 on both paragraphs
`"a q"` and `"a r"`; the selector returns the first of the two. -/
theorem first_maximum_selected_witness :
    entryScore "a x".toList sampleDoc (0, 2) = entryScore "a x".toList sampleDoc (0, 1) ∧
    find_best_matching_paragraph "a x".toList [(0, 1), (0, 2)] sampleDoc
      = (mkRat 1 2, some (0, 1, entryWords sampleDoc (0, 1))) :=
  ⟨by decide,
    first_maximum_selected "a x".toList sampleDoc [(0, 1), (0, 2)] 0 (0, 1) (mkRat 1 2)
      (by decide) (by decide) (by decide) (by decide)
      (fun j hj ej _ => absurd hj (Nat.not_lt_zero j))
      (by decide)⟩

/-- C7: per fragment, the merge step applies annotations exactly when
the selector found a paragraph and its score strictly exceeds 0.1
(`mkRat 1 10`); when no paragraph was found or the best score is at or
below the threshold, the document is returned unchanged — the fragment
is silently skipped, and the step, being a total function, raises
nothing. -/
theorem threshold_gates_flag_application (t : AnnType) (mapping : List (Nat × Nat))
    (doc : List Page) (frag : Str) :
    ((find_best_matching_paragraph (pyStrip frag) mapping doc).2 = none ∨
        (find_best_matching_paragraph (pyStrip frag) mapping doc).1 ≤ mkRat 1 10 →
      process_fragment t mapping doc frag = doc) ∧
    (∀ score pi qi pws,
      find_best_matching_paragraph (pyStrip frag) mapping doc = (score, some (pi, qi, pws)) →
      mkRat 1 10 < score → (pyStrip frag).isEmpty = false →
      process_fragment t mapping doc frag =
        updatePara doc pi qi fun pr =>
          { pr with
            words := applyFlags t
              ((find_contiguous_matches (pyJoinSpace (pySplit (pyStrip frag))) pws).dedup)
              pr.words 0 }) := by
  constructor
  · intro h
    unfold process_fragment
    by_cases h1 : (pyStrip frag).isEmpty = true
    · rw [if_pos h1]
    · rw [if_neg h1]
      rcases hres : find_best_matching_paragraph (pyStrip frag) mapping doc with ⟨score, info⟩
      cases info with
      | none => simp only [hres]
      | some trip =>
        obtain ⟨pi, qi, pws⟩ := trip
        simp only [hres]
        rw [hres] at h
        rcases h with h | h
        · simp at h
        · simp only at h
          rw [if_neg (not_lt.mpr h)]
  · intro score pi qi pws hres hscore hnem
    unfold process_fragment
    rw [if_neg (by simp [hnem])]
    simp only [hres]
    rw [if_pos hscore]

/-- Witness for C7: a fragment longer than every paragraph of the
sample document scores 0 everywhere, so no paragraph is found and the
document is unchanged. -/
theorem threshold_gates_flag_application_witness :
    process_fragment AnnType.isTemei [(0, 0), (0, 1), (0, 2)] sampleDoc "x y z w".toList
      = sampleDoc :=
  (threshold_gates_flag_application AnnType.isTemei [(0, 0), (0, 1), (0, 2)] sampleDoc
    "x y z w".toList).1 (Or.inl (by decide))

/-- C8: a merge pass of one category over any fragment list relates the
input and output documents pointwise — same pages, same paragraphs,
same words in the same order, with identical text, id and position
metadata; only the processed category's flag may change, and only from
`false` to `true`; every other category's flag (and `isExceptie`) is
untouched on every word. -/
theorem merge_pass_frame (t : AnnType) (mapping : List (Nat × Nat))
    (doc : List Page) (frags : List Str) :
    List.Forall₂ (PageFrame t) doc (process_fragments t mapping doc frags) :=
  process_fragments_frame t mapping frags doc

/-- C9: every index produced by the Contiguous Match Finder is strictly
below the paragraph's word count, so the applicator's `pos < len`
bounds guard filters out nothing. -/
theorem match_positions_within_bounds (frag : Str) (pws : List Word) :
    ((find_contiguous_matches frag pws).all fun p => p < pws.length) = true ∧
    ((find_contiguous_matches frag pws).dedup.filter fun p => p < pws.length)
      = (find_contiguous_matches frag pws).dedup := by
  constructor
  · rw [List.all_eq_true]
    intro p hp
    simpa using fcm_lt_length frag pws p hp
  · refine List.filter_eq_self.mpr ?_
    intro p hp
    simpa using fcm_lt_length frag pws p (List.mem_dedup.mp hp)

/-- C10: two words made exclusively of punctuation (no word characters,
no whitespace) both normalize to the empty string, so `words_match`
declares them equivalent. -/
theorem punctuation_only_words_match (w1 w2 : Str)
    (h1 : ∀ c ∈ w1, pyWordChar c = false ∧ pyIsSpace c = false)
    (h2 : ∀ c ∈ w2, pyWordChar c = false ∧ pyIsSpace c = false) :
    words_match w1 w2 = true := by
  have hclean : ∀ w : Str, (∀ c ∈ w, pyWordChar c = false ∧ pyIsSpace c = false) →
      cleanWord w = [] := by
    intro w hw
    rw [cleanWord, List.filter_eq_nil_iff]
    intro c hc
    obtain ⟨d, hd, rfl⟩ := List.mem_map.mp hc
    rw [pyLower_id_of_not_word d (hw d hd).1]
    simp [(hw d hd).1, (hw d hd).2]
  rw [words_match, hclean w1 h1, hclean w2 h2]
  rfl

/-- Witness for C10: the punctuation-only words `",,."` and `"!?"`
match. -/
theorem punctuation_only_words_match_witness :
    (∀ c ∈ ",,.".toList, pyWordChar c = false ∧ pyIsSpace c = false) ∧
    (∀ c ∈ "!?".toList, pyWordChar c = false ∧ pyIsSpace c = false) ∧
    words_match ",,.".toList "!?".toList = true :=
  ⟨by decide, by decide,
    punctuation_only_words_match ",,.".toList "!?".toList (by decide) (by decide)⟩

/-- Witness for the amended C5: the characterization instantiated on
`"Contractul,"` and `"contractul"`. -/
theorem words_match_iff_normalized_eq_witness :
    words_match "Contractul,".toList "contractul".toList = true :=
  (words_match_iff_normalized_eq.1 "Contractul,".toList "contractul".toList).mpr (by decide)
